import Mathlib

/-!
Verification of the r.futures.pga simulation engine (GRASS FUTURES).

This file gives a shallow embedding, in Lean 4, of the parts of
`r.futures/r.futures.pga/simulation.c`, `inputs.c` and `output.c` that the
specification's claims are about, and proves (or refutes) each claim against
that embedding.

Modelling conventions:
* C `float`/`double` arithmetic is idealised as exact arithmetic (`ℚ` where
  the claims are order/algebra facts, `ℝ` for the logistic model which uses
  `exp`).  Machine integers are `ℤ`/`ℕ` (no overflow is relevant to any
  claim: all quantities involved are small counts and indices).
* Out-of-core raster layers (`Segment_get`/`Segment_put`) are modelled as
  total functions; the simulation code always addresses them by a cell id or
  by (row, col), so a layer is a function from the id.
* `G_drand48()` draws are modelled as an explicit stream `ℕ → ℚ` of values
  consumed positionally, which makes draw order and determinism statable.
* Code that the claims need but that is not present under `src/`
  (`grow_patch` and `get_patch_size` from `patch.c`, the `MAX_SEED_ITER`
  constant from the header) is modelled from the spec, as oracle parameters
  constrained by explicitly named conformance predicates; the definitions
  say so in their doc comments.
-/

namespace FuturesSim

/-! ## Demand accounting (`compute_step`, simulation.c lines 208–232 and 271–272)

The relevant fragment of `compute_step` is straight-line integer arithmetic:

    n_to_convert = demand->table[region][step];
    extra = patch_overflow[region];
    if (extra > 0) {
        if (n_to_convert - extra > 0) { n_to_convert -= extra; extra = 0; }
        else { extra -= n_to_convert; n_to_convert = 0; }
    }
    if (n_to_convert > undev_cells->num[region]) {
        G_warning(...);             /* non-fatal */
        n_to_convert = undev_cells->num[region];
        force_convert_all = true;
    }
    ... loop ...
    extra += (n_done - n_to_convert);
    patch_overflow[region] = extra;
-/

/-- Overflow reconciliation at the top of `compute_step` (lines 213–224).
Returns the adjusted requested amount and the unconsumed overflow. -/
def reconcile_overflow (n_to_convert extra : ℤ) : ℤ × ℤ :=
  if 0 < extra then
    if 0 < n_to_convert - extra then (n_to_convert - extra, 0)
    else (0, extra - n_to_convert)
  else (n_to_convert, extra)

/-- Supply clamping in `compute_step` (lines 226–232).  Returns the clamped
requested amount and whether the non-fatal shortfall warning was emitted
(the same condition also sets `force_convert_all`). -/
def clamp_to_supply (n_to_convert num_undev : ℤ) : ℤ × Bool :=
  if num_undev < n_to_convert then (num_undev, true) else (n_to_convert, false)

/-- The value stored into `patch_overflow[region]` at the end of
`compute_step` (lines 271–272), as a function of the demand-table entry, the
carried overflow, the number of undeveloped cells in the region, and the
number of cells the loop actually converted. -/
def compute_step_overflow (demand extra0 num_undev n_done : ℤ) : ℤ :=
  let r := reconcile_overflow demand extra0
  let c := clamp_to_supply r.1 num_undev
  r.2 + (n_done - c.1)

/-! ## Snapshot output (`output_developed_step`, output.c lines 46–83)

Per cell, the written value depends only on the developed-state value of
that cell and the two flags.  The row buffer is pre-set to null and a cell
is skipped (left null) by `continue`. -/

/-- The value `output_developed_step` writes for one cell: `none` models a
GRASS null cell, `some v` a written CELL value.  The input `developed` is
the developed-state layer value of the cell (`none` = null). -/
def output_developed_cell (undeveloped_as_null developed_as_one : Bool)
    (developed : Option ℤ) : Option ℤ :=
  match developed with
  | none => none
  | some d =>
    if undeveloped_as_null && d = -1 then none
    else if developed_as_one then some 1
    else some d

/-! ## Uniform seed draw (`get_seed`, simulation.c lines 59–70)

    if (method == RANDOM)
        i = (int)(G_drand48() * undev_cells->max[region_idx]);

`G_drand48()` is uniform in [0,1); the C cast `(int)` truncates toward
zero.  Note the code multiplies by `max` (the region's list *capacity*,
doubled by `recompute_probabilities` on overflow), not by `num` (the count
of valid entries). -/

/-- C cast of a nonnegative-or-negative rational to `int`: truncation toward
zero. -/
def rat_trunc (x : ℚ) : ℤ :=
  if 0 ≤ x then ⌊x⌋ else -⌊-x⌋

/-- The list index drawn by `get_seed` for the RANDOM (uniform) method, as
written in the code: `(int)(u * max[region])` where `max` is the capacity
of the region's list. -/
def get_seed_random_index (max_capacity : ℤ) (u : ℚ) : ℤ :=
  rat_trunc (u * max_capacity)

/-- Modelled from the spec: the uniform seed draw as §4.4 words it, `index =
floor(U × count[region])` where `count[region]` is the number of currently
undeveloped cells stored in the region's list (`num`, not the capacity). -/
def get_seed_uniform_spec (count : ℤ) (u : ℚ) : ℤ :=
  ⌊u * count⌋

/-! ## Probability normalization (`recompute_probabilities`, simulation.c lines 168–181)

For every region index (including regions whose rebuilt list is empty) the
code runs:

    probability = cells[r][0].probability;              // reads entry 0
    cells[r][0].cumulative_probability = probability;   // writes entry 0
    for (i = 1; i < num[r]; i++)
        cells[r][i].cumulative_probability =
            cells[r][i-1].cumulative_probability + cells[r][i].probability;
    sum = cells[r][i - 1].cumulative_probability;       // i == max(num[r],1) here
    for (i = 0; i < num[r]; i++)
        cells[r][i].cumulative_probability /= sum;

The probabilities of a region's list are modelled as a function
`prob : ℕ → ℚ` over list positions (entries at positions ≥ num hold stale
values from earlier rebuilds; the function is total, as the backing array
is).  `cumulative_probability` is the running prefix sum the first loop
computes, `recompute_sum` the normalizer read after it, and
`recompute_normalized` the final cumulative_probability of entry `i`.
`recompute_norm_accesses` lists, in order, the list positions the fragment
touches for a region with `num` valid entries. -/

/-- Prefix sums of a region's probabilities, exactly as the first loop of
the normalization phase computes them into `cumulative_probability`. -/
def cumulative_probability (prob : ℕ → ℚ) : ℕ → ℚ
  | 0 => prob 0
  | i + 1 => cumulative_probability prob i + prob (i + 1)

/-- The normalizer `sum` read after the prefix-sum loop: the entry at
position `i - 1` where `i = max num 1` is the loop's exit value, i.e.
position `num - 1` for `num ≥ 1` and position 0 for `num = 0`. -/
def recompute_sum (prob : ℕ → ℚ) (num : ℕ) : ℚ :=
  cumulative_probability prob (num - 1)

/-- The final `cumulative_probability` of entry `i` after the division
loop. -/
def recompute_normalized (prob : ℕ → ℚ) (num : ℕ) (i : ℕ) : ℚ :=
  cumulative_probability prob i / recompute_sum prob num

/-- The list positions the normalization phase accesses for one region, in
program order: the unconditional read and write of entry 0, the prefix-sum
loop's reads/writes (`i`, `i−1`, `i` for `i = 1 .. num−1`), the read of the
normalizer at position `max num 1 − 1`, and the division loop's read/write
of each entry `i < num`. -/
def recompute_norm_accesses (num : ℕ) : List ℕ :=
  [0, 0] ++ ((List.range' 1 (num - 1)).flatMap fun i => [i, i - 1, i]) ++
    [max num 1 - 1] ++ ((List.range num).flatMap fun i => [i, i])

/-! ## Weighted seed selection (`find_probable_seed`, simulation.c lines 29–56)

    p = G_drand48();
    first = 0;
    last = undev_cells->num[region] - 1;
    middle = (first + last) / 2;
    if (p <= cells[region][first].cumulative_probability) return 0;
    if (p >= cells[region][last].cumulative_probability) return last;
    while (first <= last) {
        if (cells[region][middle].cumulative_probability < p)
            first = middle + 1;
        else if (cells[region][middle - 1].cumulative_probability < p &&
                 cells[region][middle].cumulative_probability >= p)
            return middle;
        else
            last = middle - 1;
        middle = (first + last)/2;
    }
    return 0;   /* fallback */

The region's cumulative_probability array is a function `cum : ℤ → ℚ` over
list positions (an integer index, so that the `middle - 1` access is
representable even when it would be negative), `num` is
`undev_cells->num[region]`, and `p` the uniform draw.  `middle` is computed
before the loop condition is re-tested and only ever used inside the body,
so recomputing it at the head of each iteration is equivalent.  C's `int`
division truncates toward zero, which agrees with Lean's `Int` division on
the nonnegative operands that occur (both arguments stay ≥ 0 once
`first ≤ last`, `0 ≤ first`); the bounds lemmas below need no sign
assumption.  Each function returns, besides the C result, the list of
positions at which the cumulative_probability array is read, in evaluation
order and respecting the short-circuit of `&&`. -/

lemma middle_ge_first (first last : ℤ) (h : first ≤ last) :
    first ≤ (first + last) / 2 := by
  have h2 : (first + first) / 2 ≤ (first + last) / 2 :=
    Int.ediv_le_ediv (by norm_num) (by linarith)
  rwa [show first + first = 2 * first by ring,
    Int.mul_ediv_cancel_left _ (by norm_num)] at h2

lemma middle_le_last (first last : ℤ) (h : first ≤ last) :
    (first + last) / 2 ≤ last := by
  have h2 : (first + last) / 2 ≤ (last + last) / 2 :=
    Int.ediv_le_ediv (by norm_num) (by linarith)
  rwa [show last + last = 2 * last by ring,
    Int.mul_ediv_cancel_left _ (by norm_num)] at h2

/-- The bisection loop of `find_probable_seed`.  Returns the C return value
(`0` for the commented fallback return) paired with the accessed list
positions. -/
def find_probable_seed_loop (cum : ℤ → ℚ) (p : ℚ) (first last : ℤ) : ℤ × List ℤ :=
  if h : first ≤ last then
    let middle := (first + last) / 2
    if cum middle < p then
      let r := find_probable_seed_loop cum p (middle + 1) last
      (r.1, middle :: r.2)
    else if cum (middle - 1) < p then
      (middle, [middle, middle - 1, middle])
    else
      let r := find_probable_seed_loop cum p first (middle - 1)
      (r.1, middle :: (middle - 1) :: r.2)
  else (0, [])
termination_by (last + 1 - first).toNat
decreasing_by
  · have h1 := middle_ge_first first last h
    omega
  · have h2 := middle_le_last first last h
    omega

/-- `find_probable_seed` with its access trace: the two edge tests read
positions 0 and `num − 1` before the loop runs. -/
def find_probable_seed_aux (cum : ℤ → ℚ) (num : ℕ) (p : ℚ) : ℤ × List ℤ :=
  if p ≤ cum 0 then (0, [0])
  else if cum ((num : ℤ) - 1) ≤ p then ((num : ℤ) - 1, [0, (num : ℤ) - 1])
  else
    let r := find_probable_seed_loop cum p 0 ((num : ℤ) - 1)
    (r.1, 0 :: ((num : ℤ) - 1) :: r.2)

/-- The list index `find_probable_seed` returns. -/
def find_probable_seed (cum : ℤ → ℚ) (num : ℕ) (p : ℚ) : ℤ :=
  (find_probable_seed_aux cum num p).1

/-! ## Potential model (`get_develop_probability_xy`, simulation.c lines 74–111)

    probability = potential_info->intercept[region_index];
    probability += potential_info->devpressure[region_index] * devpressure_val;
    for (i = 0; i < potential_info->max_predictors; i++)
        probability += potential_info->predictors[i][region_index] * values[i];
    probability = 1.0 / (1.0 + exp(-probability));
    if (potential_info->incentive_transform) {
        transformed_idx = (int) (probability * (potential_info->incentive_transform_size - 1));
        if (transformed_idx >= potential_info->incentive_transform_size || transformed_idx < 0)
            G_fatal_error(...);
        probability = potential_info->incentive_transform[transformed_idx];
    }
    if (segments->use_weight) {
        if (weight < 0) probability *= fabs(weight);
        else if (weight > 0) probability = probability + weight - probability * weight;
    }

Float arithmetic is idealised as exact real arithmetic; the accumulating
`probability +=` loop is the finite sum over the predictor indices.  The
two raster reads (`devpressure_val`, `values`, `weight`) are passed as
arguments; the function has no other inputs and no state, which is how the
claim's "deterministic and pure given its inputs" is captured: it is
embedded as a total function of those arguments.  `G_fatal_error` is the
`Except.error` result. -/

/-- The per-region regression coefficients and optional incentive table of
`struct Potential` (the fields `get_develop_probability_xy` reads). -/
structure PotentialInfo where
  intercept : ℕ → ℝ
  devpressure : ℕ → ℝ
  predictors : ℕ → ℕ → ℝ
  max_predictors : ℕ
  incentive_transform : Option (ℕ → ℝ)
  incentive_transform_size : ℤ

/-- C cast of a `double` to `int`: truncation toward zero. -/
noncomputable def real_trunc (x : ℝ) : ℤ :=
  if 0 ≤ x then ⌊x⌋ else -⌊-x⌋

/-- The logistic function `1 / (1 + e^(−x))`. -/
noncomputable def logistic (x : ℝ) : ℝ :=
  1 / (1 + Real.exp (-x))

/-- The weight block at the end of `get_develop_probability_xy` (lines
102–109). -/
noncomputable def apply_weight (use_weight : Bool) (weight probability : ℝ) : ℝ :=
  if use_weight then
    if weight < 0 then probability * |weight|
    else if 0 < weight then probability + weight - probability * weight
    else probability
  else probability

/-- `get_develop_probability_xy` as a function of the values the code reads
from the raster layers at (row, col): the development-pressure value, the
packed predictor values, and (when `use_weight`) the weight value. -/
noncomputable def get_develop_probability_xy (pot : PotentialInfo) (region : ℕ)
    (devpressure_val : ℝ) (values : ℕ → ℝ)
    (use_weight : Bool) (weight : ℝ) : Except Unit ℝ :=
  let score := pot.intercept region + pot.devpressure region * devpressure_val +
    ∑ i ∈ Finset.range pot.max_predictors, pot.predictors i region * values i
  let probability := logistic score
  match pot.incentive_transform with
  | some table =>
    let idx := real_trunc (probability * ((pot.incentive_transform_size : ℝ) - 1))
    if pot.incentive_transform_size ≤ idx ∨ idx < 0 then Except.error ()
    else Except.ok (apply_weight use_weight weight (table idx.toNat))
  | none => Except.ok (apply_weight use_weight weight probability)

/-- The weight blend as §4.2 step 4 words it: `weight < 0` dampens by
`|weight|`, `weight > 0` boosts by the complementary blend, `weight == 0`
leaves the probability unchanged. -/
noncomputable def apply_weight_spec (use_weight : Bool) (weight probability : ℝ) : ℝ :=
  if use_weight then
    if weight < 0 then probability * |weight|
    else if 0 < weight then probability + weight - probability * weight
    else probability
  else probability

/-- The reference definition of §4.2: linear score, logistic, optional
incentive lookup at `floor(probability × (N−1))` failing with a range error
outside `[0, N−1]`, then the optional weight blend. -/
noncomputable def computeProbability_spec (pot : PotentialInfo) (region : ℕ)
    (devpressure_val : ℝ) (values : ℕ → ℝ)
    (use_weight : Bool) (weight : ℝ) : Except Unit ℝ :=
  let score := pot.intercept region + pot.devpressure region * devpressure_val +
    ∑ i ∈ Finset.range pot.max_predictors, pot.predictors i region * values i
  let probability := logistic score
  match pot.incentive_transform with
  | some table =>
    let idx := ⌊probability * ((pot.incentive_transform_size : ℝ) - 1)⌋
    if idx < 0 ∨ pot.incentive_transform_size - 1 < idx then Except.error ()
    else Except.ok (apply_weight_spec use_weight weight (table idx.toNat))
  | none => Except.ok (apply_weight_spec use_weight weight probability)

/-! ## The conversion loop of `compute_step` (simulation.c lines 184–275)

    while (n_done < n_to_convert) {
        if (!allow_already_tried_ones && unsuccessful_tries > MAX_SEED_ITER * n_to_convert)
            allow_already_tried_ones = true;
        idx = get_seed(undev_cells, region, search_alg, &seed_row, &seed_col);
        if (!allow_already_tried_ones && undev_cells->cells[region][idx].tried) {
            unsuccessful_tries++;
            continue;
        }
        undev_cells->cells[region][idx].tried = 1;
        Segment_get(&segments->developed, &developed, seed_row, seed_col);
        if (developed != -1) { unsuccessful_tries++; continue; }
        Segment_get(&segments->probability, &prob, seed_row, seed_col);
        if (force_convert_all || G_drand48() < prob) {
            patch_size = get_patch_size(patch_sizes);
            found = grow_patch(seed_row, seed_col, patch_size, step, ...);
            for (i = 0; i < found; i++) update_development_pressure_precomputed(...);
            n_done += found;
        }
    }

State: a region's list is `cells : List (ℕ × Bool)` of (cell id, tried
flag); the developed-state layer is the predicate `developed : ℕ → Bool`
over cell ids (`true` models a value ≠ −1); the counters are integers as in
C.  Randomness: every `G_drand48()` call reads the stream at the current
position `pos` and advances it; `get_seed` consumes exactly one draw for
either search method, the acceptance test consumes one draw only when
`force_convert_all` is false (C's `||` short-circuit), and the patch-size
sampler consumes one draw.

Oracles (`StepEnv`): `idxOf` abstracts the mapping a `get_seed` method
applies to its draw (the two concrete samplers are embedded above as
`get_seed_random_index` and `find_probable_seed`); `patchOf` models
`get_patch_size` (patch.c, not in src; §4.6: a draw selects one of the
region's positive patch sizes); `prob` is the probability layer by cell id;
`grow` models `grow_patch` (patch.c, not in src) and is constrained by
`GrowConforms` below; `max_seed_iter` is the header constant
`MAX_SEED_ITER`.  `update_development_pressure_precomputed` touches only
the pressure layer, which no loop decision reads, so it has no observable
effect on this state. -/

/-- The oracle inputs of the conversion loop; see the section comment. -/
structure StepEnv where
  idxOf : ℚ → ℕ
  patchOf : ℚ → ℕ
  prob : ℕ → ℚ
  grow : ℕ → ℕ → (ℕ → Bool) → List ℕ
  max_seed_iter : ℤ

/-- The mutable state of one `compute_step` invocation: the region's
undeveloped list, the developed layer, the loop counters and flags, and
the position of the shared random stream. -/
structure StepState where
  cells : List (ℕ × Bool)
  developed : ℕ → Bool
  n_done : ℤ
  n_to_convert : ℤ
  tries : ℤ
  allow_tried : Bool
  force_convert_all : Bool
  pos : ℕ

/-- The acceptance body (patch-size draw at stream position `p`, patch
growth, pressure update, `n_done += found`). -/
def step_accept (env : StepEnv) (stream : ℕ → ℚ) (s : StepState)
    (cells' : List (ℕ × Bool)) (id : ℕ) (allow : Bool) (p : ℕ) : StepState :=
  let patch_size := env.patchOf (stream p)
  let new_ids := env.grow id patch_size s.developed
  { s with cells := cells',
           developed := fun j => s.developed j || decide (j ∈ new_ids),
           n_done := s.n_done + new_ids.length,
           allow_tried := allow,
           pos := p + 1 }

/-- One pass of the `while` body (the seed draw is consumed at `s.pos`). -/
def step_iter (env : StepEnv) (stream : ℕ → ℚ) (s : StepState) : StepState :=
  let allow := s.allow_tried || decide (env.max_seed_iter * s.n_to_convert < s.tries)
  let c := s.cells.getD (env.idxOf (stream s.pos)) (0, false)
  if !allow && c.2 then
    { s with tries := s.tries + 1, allow_tried := allow, pos := s.pos + 1 }
  else
    let cells' := s.cells.set (env.idxOf (stream s.pos)) (c.1, true)
    if s.developed c.1 then
      { s with cells := cells', tries := s.tries + 1, allow_tried := allow, pos := s.pos + 1 }
    else if s.force_convert_all then
      step_accept env stream s cells' c.1 allow (s.pos + 1)
    else if stream (s.pos + 1) < env.prob c.1 then
      step_accept env stream s cells' c.1 allow (s.pos + 2)
    else
      { s with cells := cells', allow_tried := allow, pos := s.pos + 2 }

/-- The `while (n_done < n_to_convert)` loop, fuelled: `some` is reaching
the loop exit within `fuel` iterations, `none` is not (yet) exiting. -/
def run_step (env : StepEnv) (stream : ℕ → ℚ) : ℕ → StepState → Option StepState
  | 0, s => if s.n_to_convert ≤ s.n_done then some s else none
  | fuel + 1, s =>
    if s.n_to_convert ≤ s.n_done then some s
    else run_step env stream fuel (step_iter env stream s)

/-- The loop state `compute_step` builds before the loop (lines 207–232):
overflow reconciliation, then the supply clamp.  Returns the initial state,
the unconsumed carried overflow, and whether the shortfall warning was
emitted (the same condition sets `force_convert_all`). -/
def init_step (demand extra0 : ℤ) (cells0 : List (ℕ × Bool)) (developed0 : ℕ → Bool) :
    StepState × ℤ × Bool :=
  let r := reconcile_overflow demand extra0
  let c := clamp_to_supply r.1 cells0.length
  ({ cells := cells0, developed := developed0, n_done := 0, n_to_convert := c.1,
     tries := 0, allow_tried := false, force_convert_all := c.2, pos := 0 }, r.2, c.2)

/-- Modelled from the spec: conformance of a `grow_patch` model (§4.7;
patch.c is not under src/).  Growing from an undeveloped seed with a
positive target size converts pairwise-distinct cells, among them the
seed, at most `size` many, all of them undeveloped beforehand.  §4.7 does
not bound growth to the seed's region (§9 records this explicitly), so no
such bound is imposed. -/
def GrowConforms (grow : ℕ → ℕ → (ℕ → Bool) → List ℕ) : Prop :=
  ∀ id size dev, 1 ≤ size → dev id = false →
    (grow id size dev).Nodup ∧ id ∈ grow id size dev ∧
    (grow id size dev).length ≤ size ∧ ∀ j ∈ grow id size dev, dev j = false

/-! ## Invariants and concrete fixtures used by the loop theorems -/

/-- The number of listed cells (by id) the developed layer still marks
undeveloped. -/
def undev_card (ids0 : List ℕ) (dev : ℕ → Bool) : ℕ :=
  (ids0.toFinset.filter fun id => dev id = false).card

/-- Loop invariant for a forced (supply-clamped) step over a region whose
list carries the ids `ids0` and whose loop target is `N`: the force flag is
set, the list ids are unchanged, the target is unchanged, every listed
undeveloped cell is untried (in force mode a tried undeveloped cell is
immediately converted, so none survives an iteration), and the remaining
undeveloped supply still covers the remaining demand. -/
structure ForceInv (env : StepEnv) (ids0 : List ℕ) (N : ℤ) (s : StepState) : Prop where
  force : s.force_convert_all = true
  ids : s.cells.map Prod.fst = ids0
  target : s.n_to_convert = N
  untried : ∀ c ∈ s.cells, s.developed c.1 = false → c.2 = false
  count : N ≤ s.n_done + (undev_card ids0 s.developed : ℤ)

/-- Counting invariant when every grown patch stays inside the region's
list: converted plus remaining undeveloped is constant. -/
structure ExactInv (ids0 : List ℕ) (N : ℤ) (s : StepState) : Prop where
  ids : s.cells.map Prod.fst = ids0
  count : s.n_done + (undev_card ids0 s.developed : ℤ) = N

/-- A concrete conforming `grow_patch` model used as a counterexample: from
seed `id` it grows toward the fixed neighbour cells 100 and 101 (skipping
developed ones and the seed itself), truncated to the target size.  No cell
of the growing region's list other than the seed need be among them — §4.7
growth is not region-bounded. -/
def cexGrow : ℕ → ℕ → (ℕ → Bool) → List ℕ :=
  fun id size dev => (id :: List.filter (fun j => !dev j && !(j == id)) [100, 101]).take size

/-- Counterexample environment: the seed draw always selects list index 0,
the patch-size draw always yields 3, growth is `cexGrow`. -/
def cexEnv : StepEnv :=
  { idxOf := fun _ => 0, patchOf := fun _ => 3, prob := fun _ => 1,
    grow := cexGrow, max_seed_iter := 1000 }

/-- A constant draw stream. -/
def cexStream : ℕ → ℚ := fun _ => 0

/-- An environment with single-cell patches, used by witnesses. -/
def witEnv : StepEnv :=
  { idxOf := fun _ => 0, patchOf := fun _ => 1, prob := fun _ => 1,
    grow := fun id _ _ => [id], max_seed_iter := 5 }

/-- A loop state whose target is already met, used by witnesses. -/
def witState : StepState :=
  { cells := [], developed := fun _ => false, n_done := 0, n_to_convert := 0,
    tries := 0, allow_tried := false, force_convert_all := false, pos := 0 }

/-- The cumulative_probability list [0.2, 0.5, 1.0] of claim C2's example,
as a total function over list positions. -/
def exampleCum : ℤ → ℚ := fun i => if i ≤ 0 then 1/5 else if i ≤ 1 then 1/2 else 1

end FuturesSim

namespace FuturesSim

/-! ## Theorems for claims C3, C4, C10 -/

/-- Claim C3 (code_bug evidence).  Uniform seed selection in `get_seed` is
claimed to draw `floor(U × count[region])`, with every returned index in
`[0, count[region]−1]`.  The code instead multiplies by the region's list
*capacity* (`undev_cells->max`), not the count (`undev_cells->num`).  At the
concrete failing input `count = 2`, `capacity = 4` (one capacity doubling),
`U = 3/5`: the code draws index `2`, which is outside `[0, count−1] = [0,1]`
and addresses an entry never initialised by `recompute_probabilities`,
whereas the spec's draw yields index `1`. -/
theorem C3_get_seed_uniform_draw_uses_capacity :
    get_seed_random_index 4 (3/5) = 2 ∧
    ¬ (2 : ℤ) ≤ 2 - 1 ∧
    get_seed_uniform_spec 2 (3/5) = 1 := by
  refine ⟨?_, by decide, ?_⟩
  · norm_num [get_seed_random_index, rat_trunc]
  · norm_num [get_seed_uniform_spec]

/-- Claim C4.  Demand accounting in `compute_step`: a positive carried
overflow is first subtracted from the requested amount, flooring the
requested amount at 0 and retaining any unconsumed overflow; at loop end
the stored overflow equals the unconsumed previous overflow plus (actually
converted − requested amount), where the requested amount is the loop's
final target (after reconciliation, and after the supply clamp when one
applies — the example instance with demand 100 met without shortfall gives
overflow = converted − 100). -/
theorem C4_compute_step_overflow_accounting :
    (∀ n e : ℤ, 0 < e →
      reconcile_overflow n e = (max (n - e) 0, max (e - n) 0)) ∧
    (∀ demand extra0 num_undev n_done : ℤ,
      compute_step_overflow demand extra0 num_undev n_done =
        (reconcile_overflow demand extra0).2 +
          (n_done - min (reconcile_overflow demand extra0).1 num_undev)) ∧
    (∀ num_undev n_done : ℤ, 100 ≤ num_undev →
      compute_step_overflow 100 0 num_undev n_done = n_done - 100) := by
  refine ⟨?_, ?_, ?_⟩
  · intro n e he
    simp only [reconcile_overflow, if_pos he]
    by_cases h : 0 < n - e
    · rw [if_pos h, Prod.mk.injEq]
      refine ⟨by omega, by omega⟩
    · rw [if_neg h, Prod.mk.injEq]
      refine ⟨by omega, by omega⟩
  · intro demand extra0 num_undev n_done
    simp only [compute_step_overflow, clamp_to_supply]
    by_cases h : num_undev < (reconcile_overflow demand extra0).1
    · rw [if_pos h]
      omega
    · rw [if_neg h]
      omega
  · intro num_undev n_done h
    simp only [compute_step_overflow, reconcile_overflow, clamp_to_supply]
    rw [if_neg (by omega : ¬ (0:ℤ) < 0), if_neg (by omega : ¬ num_undev < 100)]
    omega

/-- Witness for C4 at concrete inputs: carried overflow 7 against demand 5
leaves request 0 and retains 2; and demand 100, zero overflow, ample supply
(150 undeveloped), 103 converted stores overflow 3. -/
theorem C4_compute_step_overflow_accounting_witness :
    reconcile_overflow 5 7 = (max (5 - 7) 0, max (7 - 5) 0) ∧
    compute_step_overflow 100 0 150 103 = 103 - 100 := by
  constructor
  · exact C4_compute_step_overflow_accounting.1 5 7 (by norm_num)
  · exact C4_compute_step_overflow_accounting.2.2 150 103 (by norm_num)

/-- Claim C10 (code_bug evidence).  The claim (and the function's own doc
comment, which says `developmentAsOne` represents *developed* areas as 1)
requires an undeveloped value (−1) to be written as −1 whenever
`undeveloped_as_null` is unset.  But the code applies `developed = 1`
before writing whenever `developed_as_one` is set, without checking that
the cell is developed: at the failing input
(`undeveloped_as_null = false`, `developed_as_one = true`, cell value −1)
it writes 1, not −1. -/
theorem C10_output_undeveloped_written_as_one :
    output_developed_cell false true (some (-1)) = some 1 ∧
    (some (1 : ℤ) ≠ some (-1 : ℤ)) ∧
    output_developed_cell false false (some (-1)) = some (-1) := by
  refine ⟨rfl, by decide, rfl⟩

/-! ## Theorems for claims C1 and C8 -/

lemma cumulative_probability_eq_sum (prob : ℕ → ℚ) (i : ℕ) :
    cumulative_probability prob i = ∑ k ∈ Finset.range (i + 1), prob k := by
  induction i with
  | zero => simp [cumulative_probability]
  | succ n ih =>
    rw [cumulative_probability, ih]
    exact (Finset.sum_range_succ _ _).symm

lemma cumulative_probability_mono (prob : ℕ → ℚ) (num : ℕ)
    (hnn : ∀ k, k < num → 0 ≤ prob k) {i j : ℕ} (hij : i ≤ j) (hj : j < num) :
    cumulative_probability prob i ≤ cumulative_probability prob j := by
  rw [cumulative_probability_eq_sum, cumulative_probability_eq_sum]
  refine Finset.sum_le_sum_of_subset_of_nonneg ?_ ?_
  · exact Finset.range_subset.mpr (by omega)
  · intro k hk _
    exact hnn k (by
      have := Finset.mem_range.mp hk
      omega)

lemma cumulative_probability_pos (prob : ℕ → ℚ) (num : ℕ)
    (hpos : ∀ k, k < num → 0 < prob k) {i : ℕ} (hi : i < num) :
    0 < cumulative_probability prob i := by
  rw [cumulative_probability_eq_sum]
  refine Finset.sum_pos ?_ ⟨0, Finset.mem_range.mpr (by omega)⟩
  intro k hk
  exact hpos k (by
    have := Finset.mem_range.mp hk
    omega)

/-- Claim C1.  After `recompute_probabilities` rebuilds the undeveloped-cell
index, for every region with at least one undeveloped cell — given what the
code guarantees about the cached probabilities, namely that they are
nonnegative with a positive running total (`get_develop_probability_xy`
produces a logistic value in (0,1), possibly rescaled by the nonnegative
incentive table and weight blend) — the region's `cumulative_probability`
values are non-decreasing in list order, the last entry equals 1, and each
entry is the prefix sum of the probabilities divided by the final running
total. -/
theorem C1_recompute_cumulative_normalized (prob : ℕ → ℚ) (num : ℕ)
    (h1 : 1 ≤ num) (hnn : ∀ k, k < num → 0 ≤ prob k)
    (hpos : 0 < ∑ k ∈ Finset.range num, prob k) :
    (∀ i j, i ≤ j → j < num →
      recompute_normalized prob num i ≤ recompute_normalized prob num j) ∧
    recompute_normalized prob num (num - 1) = 1 ∧
    (∀ i, i < num → recompute_normalized prob num i =
      (∑ k ∈ Finset.range (i + 1), prob k) / (∑ k ∈ Finset.range num, prob k)) := by
  have hsum : 0 < recompute_sum prob num := by
    unfold recompute_sum
    rw [cumulative_probability_eq_sum, show num - 1 + 1 = num by omega]
    exact hpos
  refine ⟨?_, ?_, ?_⟩
  · intro i j hij hj
    unfold recompute_normalized
    have hmono := cumulative_probability_mono prob num hnn hij hj
    have hinv : 0 ≤ (recompute_sum prob num)⁻¹ := inv_nonneg.mpr hsum.le
    rw [div_eq_mul_inv, div_eq_mul_inv]
    exact mul_le_mul_of_nonneg_right hmono hinv
  · unfold recompute_normalized
    exact div_self (ne_of_gt hsum)
  · intro i _
    unfold recompute_normalized recompute_sum
    rw [cumulative_probability_eq_sum, cumulative_probability_eq_sum]
    have hnum : num - 1 + 1 = num := by omega
    rw [hnum]

/-- Witness for C1: the three-cell region with probabilities
[1/4, 1/2, 1/4]; its last normalized cumulative probability is 1. -/
theorem C1_recompute_cumulative_normalized_witness :
    recompute_normalized (fun i => if i = 0 then 1/4 else if i = 1 then 1/2 else 1/4) 3 2 = 1 := by
  exact (C1_recompute_cumulative_normalized
    (fun i => if i = 0 then 1/4 else if i = 1 then 1/2 else 1/4) 3
    (by norm_num)
    (by
      intro k hk
      interval_cases k <;> norm_num)
    (by norm_num [Finset.sum_range_succ])).2.1

/-- Counterexample for claim C8.  The claim states that for a region with
zero undeveloped cells the normalization phase accesses only list entries
with index less than the region's count, i.e. no entry at all.  In fact
the fragment unconditionally reads entry 0's probability, writes entry 0's
cumulative_probability and reads it back as the normalizer, even when
`num = 0`: its access list is [0, 0, 0], and 0 is not less than the count
0. -/
theorem C8_empty_region_touches_entry_zero :
    recompute_norm_accesses 0 = [0, 0, 0] ∧
    (0 : ℕ) ∈ recompute_norm_accesses 0 ∧ ¬ (0 : ℕ) < 0 := by
  refine ⟨by decide, by decide, by decide⟩

/-- Claim C8, amended.  `recompute_probabilities` on a region with zero
undeveloped cells touches exactly list position 0 (reading the stale
probability there, writing its cumulative_probability and reading it back
as the normalizer `sum`) — this is well-defined whenever the region's
backing array has capacity at least 1, which holds from allocation onward —
while the two `i < num` loops run zero times, so no entry is normalized,
the count stays 0 and the region remains a valid terminal state.  For every
region with `num ≥ 1` valid entries, all accessed positions are below
`num`. -/
theorem C8_empty_region_normalization_wellDefined :
    (recompute_norm_accesses 0 = [0, 0, 0]) ∧
    (∀ num : ℕ, 1 ≤ num → ∀ a ∈ recompute_norm_accesses num, a < num) := by
  refine ⟨by decide, ?_⟩
  intro num h1 a ha
  unfold recompute_norm_accesses at ha
  simp only [List.mem_append, List.mem_flatMap, List.mem_range', List.mem_range,
    List.mem_cons, List.not_mem_nil, or_false] at ha
  omega

/-- Witness for the amended C8 at a concrete nonempty region: position 0,
which the normalization phase accesses for a one-entry region, is below
1. -/
theorem C8_empty_region_normalization_wellDefined_witness : (0 : ℕ) < 1 :=
  C8_empty_region_normalization_wellDefined.2 1 (by norm_num) 0 (by decide)

/-! ## Theorems for claims C2 and C9 -/

lemma find_probable_seed_loop_eq (cum : ℤ → ℚ) (p : ℚ) (n : ℕ) (j : ℤ)
    (hmono : ∀ i k : ℤ, 0 ≤ i → i ≤ k → k ≤ (n : ℤ) - 1 → cum i ≤ cum k)
    (hjp : p ≤ cum j)
    (hmin : ∀ k : ℤ, 0 ≤ k → k < j → cum k < p)
    (hj1 : 1 ≤ j) (hjn : j ≤ (n : ℤ) - 1) :
    ∀ m : ℕ, ∀ first last : ℤ, (last + 1 - first).toNat = m →
      0 ≤ first → last ≤ (n : ℤ) - 1 → first ≤ j → j ≤ last →
      (find_probable_seed_loop cum p first last).1 = j := by
  intro m
  induction m using Nat.strong_induction_on with
  | _ m ih =>
  intro first last hm h0 hln hfj hjl
  have hfl : first ≤ last := le_trans hfj hjl
  have hm1 := middle_ge_first first last hfl
  have hm2 := middle_le_last first last hfl
  rw [find_probable_seed_loop.eq_def, dif_pos hfl]
  simp only []
  by_cases h1 : cum ((first + last) / 2) < p
  · rw [if_pos h1]
    have hmj : (first + last) / 2 < j := by
      by_contra hcon
      push_neg at hcon
      have hle := hmono j ((first + last) / 2) (by omega) hcon (by omega)
      exact absurd (lt_of_le_of_lt (le_trans hjp hle) h1) (lt_irrefl p)
    exact ih ((last + 1 - ((first + last) / 2 + 1)).toNat) (by omega)
      ((first + last) / 2 + 1) last rfl (by omega) hln (by omega) hjl
  · rw [if_neg h1]
    push_neg at h1
    have hjm : j ≤ (first + last) / 2 := by
      by_contra hcon
      push_neg at hcon
      exact absurd h1 (not_le.mpr (hmin ((first + last) / 2) (by omega) hcon))
    by_cases h2 : cum ((first + last) / 2 - 1) < p
    · rw [if_pos h2]
      have hge : (first + last) / 2 ≤ j := by
        by_contra hcon
        push_neg at hcon
        have hle := hmono j ((first + last) / 2 - 1) (by omega) (by omega) (by omega)
        exact absurd (lt_of_le_of_lt (le_trans hjp hle) h2) (lt_irrefl p)
      show (first + last) / 2 = j
      omega
    · rw [if_neg h2]
      push_neg at h2
      have hjm1 : j ≤ (first + last) / 2 - 1 := by
        by_contra hcon
        push_neg at hcon
        exact absurd h2 (not_le.mpr (hmin ((first + last) / 2 - 1) (by omega) (by omega)))
      exact ih (((first + last) / 2 - 1 + 1 - first).toNat) (by omega)
        first ((first + last) / 2 - 1) rfl h0 (by omega) hfj hjm1

lemma find_probable_seed_loop_safety (cum : ℤ → ℚ) (p : ℚ) (n : ℕ)
    (hn : 1 ≤ n) (hc0 : cum 0 < p) :
    ∀ m : ℕ, ∀ first last : ℤ, (last + 1 - first).toNat = m →
      0 ≤ first → last ≤ (n : ℤ) - 1 →
      (0 ≤ (find_probable_seed_loop cum p first last).1 ∧
        (find_probable_seed_loop cum p first last).1 ≤ (n : ℤ) - 1) ∧
      (∀ a ∈ (find_probable_seed_loop cum p first last).2, 0 ≤ a ∧ a ≤ (n : ℤ) - 1) := by
  intro m
  induction m using Nat.strong_induction_on with
  | _ m ih =>
  intro first last hm h0 hln
  rw [find_probable_seed_loop.eq_def]
  by_cases hfl : first ≤ last
  · rw [dif_pos hfl]
    simp only []
    have hm1 := middle_ge_first first last hfl
    have hm2 := middle_le_last first last hfl
    by_cases h1 : cum ((first + last) / 2) < p
    · rw [if_pos h1]
      have hrec := ih ((last + 1 - ((first + last) / 2 + 1)).toNat) (by omega)
        ((first + last) / 2 + 1) last rfl (by omega) hln
      refine ⟨hrec.1, ?_⟩
      intro a ha
      rcases List.mem_cons.mp ha with rfl | ha
      · exact ⟨by omega, by omega⟩
      · exact hrec.2 a ha
    · rw [if_neg h1]
      push_neg at h1
      have hmid1 : 1 ≤ (first + last) / 2 := by
        by_contra hcon
        push_neg at hcon
        have hz : (first + last) / 2 = 0 := by omega
        rw [hz] at h1
        exact absurd hc0 (not_lt.mpr h1)
      by_cases h2 : cum ((first + last) / 2 - 1) < p
      · rw [if_pos h2]
        refine ⟨⟨by omega, by omega⟩, ?_⟩
        intro a ha
        rcases List.mem_cons.mp ha with rfl | ha
        · exact ⟨by omega, by omega⟩
        rcases List.mem_cons.mp ha with rfl | ha
        · exact ⟨by omega, by omega⟩
        rcases List.mem_cons.mp ha with rfl | ha
        · exact ⟨by omega, by omega⟩
        · exact absurd ha (List.not_mem_nil a)
      · rw [if_neg h2]
        have hrec := ih (((first + last) / 2 - 1 + 1 - first).toNat) (by omega)
          first ((first + last) / 2 - 1) rfl h0 (by omega)
        refine ⟨hrec.1, ?_⟩
        intro a ha
        rcases List.mem_cons.mp ha with rfl | ha
        · exact ⟨by omega, by omega⟩
        rcases List.mem_cons.mp ha with rfl | ha
        · exact ⟨by omega, by omega⟩
        · exact hrec.2 a ha
  · rw [dif_neg hfl]
    refine ⟨⟨le_refl 0, by omega⟩, ?_⟩
    intro a ha
    exact absurd ha (List.not_mem_nil a)

/-- Claim C2.  `find_probable_seed`, given a region whose
cumulative_probability list is non-decreasing and a draw `p`: it returns 0
whenever `p` is at most the first entry; it returns the last index whenever
`p` is at least the last entry (and the first rule did not already fire,
the code's test order); and otherwise it returns the unique index `j` with
`cum (j−1) < p ≤ cum j`.  The claim's concrete instance — cumulative values
[0.2, 0.5, 1.0] with p = 0.45 returning index 1 — is the witness theorem. -/
theorem C2_find_probable_seed_weighted_selection (cum : ℤ → ℚ) (num : ℕ) (p : ℚ)
    (hmono : ∀ i k : ℤ, 0 ≤ i → i ≤ k → k ≤ (num : ℤ) - 1 → cum i ≤ cum k) :
    (p ≤ cum 0 → find_probable_seed cum num p = 0) ∧
    (cum 0 < p → cum ((num : ℤ) - 1) ≤ p →
      find_probable_seed cum num p = (num : ℤ) - 1) ∧
    (∀ j : ℤ, 1 ≤ j → j ≤ (num : ℤ) - 1 →
      cum (j - 1) < p → p ≤ cum j → p < cum ((num : ℤ) - 1) →
      find_probable_seed cum num p = j) := by
  refine ⟨?_, ?_, ?_⟩
  · intro h
    unfold find_probable_seed find_probable_seed_aux
    rw [if_pos h]
  · intro h0 hlast
    unfold find_probable_seed find_probable_seed_aux
    rw [if_neg (not_le.mpr h0), if_pos hlast]
  · intro j hj1 hjn hjpred hjp hplast
    have hmin : ∀ k : ℤ, 0 ≤ k → k < j → cum k < p := by
      intro k hk0 hkj
      exact lt_of_le_of_lt (hmono k (j - 1) hk0 (by omega) (by omega)) hjpred
    have hc0 : cum 0 < p := hmin 0 (le_refl 0) (by omega)
    unfold find_probable_seed find_probable_seed_aux
    rw [if_neg (not_le.mpr hc0), if_neg (not_le.mpr hplast)]
    exact find_probable_seed_loop_eq cum p num j hmono hjp hmin hj1 hjn
      (((num : ℤ) - 1) + 1 - 0).toNat 0 ((num : ℤ) - 1) rfl (le_refl 0)
      (le_refl _) (by omega) (by omega)

lemma exampleCum_mono : ∀ i k : ℤ, 0 ≤ i → i ≤ k → k ≤ (3 : ℤ) - 1 →
    exampleCum i ≤ exampleCum k := by
  intro i k h0 hik hk2
  have hi2 : i ≤ 2 := by omega
  unfold exampleCum
  interval_cases i <;> interval_cases k <;> norm_num

/-- Witness for C2: the claimed concrete instance.  For cumulative values
[0.2, 0.5, 1.0] and p = 0.45, `find_probable_seed` returns index 1. -/
theorem C2_find_probable_seed_weighted_selection_witness :
    find_probable_seed exampleCum 3 (9/20) = 1 := by
  refine (C2_find_probable_seed_weighted_selection exampleCum 3 (9/20)
    exampleCum_mono).2.2 1 (by norm_num) (by norm_num) ?_ ?_ ?_
  · norm_num [exampleCum]
  · norm_num [exampleCum]
  · norm_num [exampleCum]

/-- Claim C9.  For a region list with `num ≥ 1`, non-decreasing cumulative
probabilities whose last entry is 1, and a draw `p ∈ [0,1)`,
`find_probable_seed` reads the cumulative_probability array only at
positions in `[0, num−1]` — in particular never at position −1, since the
`middle − 1` access only happens after `p ≤ cum 0` has been ruled out,
which forces `middle ≥ 1` — and its result (the fallback return included)
lies in `[0, num−1]`. -/
theorem C9_find_probable_seed_access_safety (cum : ℤ → ℚ) (num : ℕ) (p : ℚ)
    (hn : 1 ≤ num)
    (hmono : ∀ i k : ℤ, 0 ≤ i → i ≤ k → k ≤ (num : ℤ) - 1 → cum i ≤ cum k)
    (hlast : cum ((num : ℤ) - 1) = 1)
    (hp0 : 0 ≤ p) (hp1 : p < 1) :
    (0 ≤ find_probable_seed cum num p ∧
      find_probable_seed cum num p ≤ (num : ℤ) - 1) ∧
    (∀ a ∈ (find_probable_seed_aux cum num p).2, 0 ≤ a ∧ a ≤ (num : ℤ) - 1) := by
  unfold find_probable_seed find_probable_seed_aux
  by_cases hc0 : p ≤ cum 0
  · rw [if_pos hc0]
    refine ⟨⟨le_refl 0, by omega⟩, ?_⟩
    intro a ha
    rcases List.mem_cons.mp ha with rfl | ha
    · exact ⟨le_refl 0, by omega⟩
    · exact absurd ha (List.not_mem_nil a)
  · rw [if_neg hc0]
    push_neg at hc0
    by_cases hl : cum ((num : ℤ) - 1) ≤ p
    · rw [if_pos hl]
      refine ⟨⟨by omega, le_refl _⟩, ?_⟩
      intro a ha
      rcases List.mem_cons.mp ha with rfl | ha
      · exact ⟨le_refl 0, by omega⟩
      rcases List.mem_cons.mp ha with rfl | ha
      · exact ⟨by omega, le_refl _⟩
      · exact absurd ha (List.not_mem_nil a)
    · rw [if_neg hl]
      have hsafe := find_probable_seed_loop_safety cum p num hn hc0
        (((num : ℤ) - 1) + 1 - 0).toNat 0 ((num : ℤ) - 1) rfl (le_refl 0) (le_refl _)
      refine ⟨hsafe.1, ?_⟩
      intro a ha
      rcases List.mem_cons.mp ha with rfl | ha
      · exact ⟨le_refl 0, by omega⟩
      rcases List.mem_cons.mp ha with rfl | ha
      · exact ⟨by omega, le_refl _⟩
      · exact hsafe.2 a ha

/-- Witness for C9 at the example list [0.2, 0.5, 1.0] with p = 0.45: the
returned index lies in [0, 2]. -/
theorem C9_find_probable_seed_access_safety_witness :
    0 ≤ find_probable_seed exampleCum 3 (9/20) ∧
      find_probable_seed exampleCum 3 (9/20) ≤ (3 : ℤ) - 1 := by
  refine (C9_find_probable_seed_access_safety exampleCum 3 (9/20)
    (by norm_num) exampleCum_mono ?_ (by norm_num) (by norm_num)).1
  norm_num [exampleCum]

/-! ## Theorem for claim C6 -/

lemma logistic_pos (x : ℝ) : 0 < logistic x := by
  unfold logistic
  positivity

lemma logistic_lt_one (x : ℝ) : logistic x < 1 := by
  unfold logistic
  rw [div_lt_one (by positivity)]
  linarith [Real.exp_pos (-x)]

lemma incentive_lookup_eq (table : ℕ → ℝ) (uw : Bool) (w : ℝ) (P : ℝ)
    (hP0 : 0 < P) (hP1 : P < 1) (s : ℤ) :
    (if s ≤ real_trunc (P * ((s : ℝ) - 1)) ∨ real_trunc (P * ((s : ℝ) - 1)) < 0
      then (Except.error () : Except Unit ℝ)
      else Except.ok (apply_weight uw w (table (real_trunc (P * ((s : ℝ) - 1))).toNat)))
    = (if ⌊P * ((s : ℝ) - 1)⌋ < 0 ∨ s - 1 < ⌊P * ((s : ℝ) - 1)⌋
      then (Except.error () : Except Unit ℝ)
      else Except.ok (apply_weight_spec uw w (⌊P * ((s : ℝ) - 1)⌋.toNat |> table))) := by
  by_cases hs : 1 ≤ s
  · have hs0 : (0 : ℝ) ≤ (s : ℝ) - 1 := by
      have : (1 : ℝ) ≤ (s : ℝ) := by exact_mod_cast hs
      linarith
    have hx0 : 0 ≤ P * ((s : ℝ) - 1) := mul_nonneg hP0.le hs0
    have htr : real_trunc (P * ((s : ℝ) - 1)) = ⌊P * ((s : ℝ) - 1)⌋ := by
      unfold real_trunc
      rw [if_pos hx0]
    have hub : ⌊P * ((s : ℝ) - 1)⌋ ≤ s - 1 := by
      have hle : P * ((s : ℝ) - 1) ≤ (s : ℝ) - 1 := by nlinarith
      have hcast : ⌊(s : ℝ) - 1⌋ = s - 1 := by
        rw [show ((s : ℝ) - 1) = ((s - 1 : ℤ) : ℝ) by push_cast; ring, Int.floor_intCast]
      exact (Int.floor_le_floor hle).trans_eq hcast
    have hlb : 0 ≤ ⌊P * ((s : ℝ) - 1)⌋ := Int.floor_nonneg.mpr hx0
    rw [htr, if_neg (by omega), if_neg (by omega)]
    rfl
  · push_neg at hs
    have hs0 : (s : ℝ) - 1 < 0 := by
      have : (s : ℝ) ≤ 0 := by exact_mod_cast (by omega : s ≤ 0)
      linarith
    have hx : P * ((s : ℝ) - 1) < 0 := mul_neg_of_pos_of_neg hP0 hs0
    have htr : real_trunc (P * ((s : ℝ) - 1)) = -⌊-(P * ((s : ℝ) - 1))⌋ := by
      unfold real_trunc
      rw [if_neg (not_le.mpr hx)]
    have h1 : 0 ≤ ⌊-(P * ((s : ℝ) - 1))⌋ := Int.floor_nonneg.mpr (by linarith)
    have h2 : ⌊P * ((s : ℝ) - 1)⌋ < 0 := Int.floor_lt.mpr (by push_cast; linarith)
    rw [htr, if_pos (by omega), if_pos (Or.inl h2)]

/-! ## Structural lemmas about the conversion loop (shared by C5 and C7) -/

lemma step_iter_pos_lt (env : StepEnv) (stream : ℕ → ℚ) (s : StepState) :
    s.pos < (step_iter env stream s).pos := by
  simp only [step_iter, step_accept]
  split_ifs <;> simp <;> omega

lemma step_iter_n_to_convert (env : StepEnv) (stream : ℕ → ℚ) (s : StepState) :
    (step_iter env stream s).n_to_convert = s.n_to_convert := by
  simp only [step_iter, step_accept]
  split_ifs <;> rfl

lemma step_iter_force (env : StepEnv) (stream : ℕ → ℚ) (s : StepState) :
    (step_iter env stream s).force_convert_all = s.force_convert_all := by
  simp only [step_iter, step_accept]
  split_ifs <;> rfl

lemma run_step_pos_le (env : StepEnv) (stream : ℕ → ℚ) :
    ∀ (fuel : ℕ) (s t : StepState), run_step env stream fuel s = some t → s.pos ≤ t.pos := by
  intro fuel
  induction fuel with
  | zero =>
    intro s t h
    simp only [run_step] at h
    split at h
    · cases h
      exact le_refl _
    · cases h
  | succ fuel ih =>
    intro s t h
    simp only [run_step] at h
    split at h
    · cases h
      exact le_refl _
    · exact le_trans (le_of_lt (step_iter_pos_lt env stream s)) (ih _ t h)

lemma run_step_exit (env : StepEnv) (stream : ℕ → ℚ) :
    ∀ (fuel : ℕ) (s t : StepState), run_step env stream fuel s = some t →
      t.n_to_convert ≤ t.n_done ∧ t.n_to_convert = s.n_to_convert := by
  intro fuel
  induction fuel with
  | zero =>
    intro s t h
    simp only [run_step] at h
    split at h
    · cases h
      exact ⟨by assumption, rfl⟩
    · cases h
  | succ fuel ih =>
    intro s t h
    simp only [run_step] at h
    split at h
    · cases h
      exact ⟨by assumption, rfl⟩
    · have hr := ih _ t h
      exact ⟨hr.1, hr.2.trans (step_iter_n_to_convert env stream s)⟩

/-! ## Theorem for claim C7 -/

lemma step_iter_congr (env : StepEnv) (r1 r2 : ℕ → ℚ) (s : StepState)
    (hag : ∀ i, s.pos ≤ i → i < (step_iter env r1 s).pos → r2 i = r1 i) :
    step_iter env r2 s = step_iter env r1 s := by
  have hpos := step_iter_pos_lt env r1 s
  have h0 : r2 s.pos = r1 s.pos := hag s.pos (le_refl _) hpos
  by_cases hA : (!(s.allow_tried || decide (env.max_seed_iter * s.n_to_convert < s.tries)) &&
      (s.cells.getD (env.idxOf (r1 s.pos)) (0, false)).2) = true
  · unfold step_iter
    rw [h0, if_pos hA, if_pos hA]
  · unfold step_iter
    rw [h0, if_neg hA, if_neg hA]
    by_cases hD : s.developed (s.cells.getD (env.idxOf (r1 s.pos)) (0, false)).1 = true
    · rw [if_pos hD, if_pos hD]
    · rw [if_neg hD, if_neg hD]
      by_cases hF : s.force_convert_all = true
      · rw [if_pos hF, if_pos hF]
        have heq : step_iter env r1 s = step_accept env r1 s
            (s.cells.set (env.idxOf (r1 s.pos))
              ((s.cells.getD (env.idxOf (r1 s.pos)) (0, false)).1, true))
            (s.cells.getD (env.idxOf (r1 s.pos)) (0, false)).1
            (s.allow_tried || decide (env.max_seed_iter * s.n_to_convert < s.tries))
            (s.pos + 1) := by
          unfold step_iter
          rw [if_neg hA, if_neg hD, if_pos hF]
        have hp1 : s.pos + 1 < (step_iter env r1 s).pos := by
          rw [heq]
          unfold step_accept
          simp
        have h1 : r2 (s.pos + 1) = r1 (s.pos + 1) := hag _ (by omega) hp1
        unfold step_accept
        rw [h1]
      · rw [if_neg hF, if_neg hF]
        have hp1 : s.pos + 1 < (step_iter env r1 s).pos := by
          have heq : step_iter env r1 s =
              (if r1 (s.pos + 1) < env.prob (s.cells.getD (env.idxOf (r1 s.pos)) (0, false)).1 then
                step_accept env r1 s
                  (s.cells.set (env.idxOf (r1 s.pos))
                    ((s.cells.getD (env.idxOf (r1 s.pos)) (0, false)).1, true))
                  (s.cells.getD (env.idxOf (r1 s.pos)) (0, false)).1
                  (s.allow_tried || decide (env.max_seed_iter * s.n_to_convert < s.tries))
                  (s.pos + 2)
              else
                { s with
                  cells := s.cells.set (env.idxOf (r1 s.pos))
                    ((s.cells.getD (env.idxOf (r1 s.pos)) (0, false)).1, true),
                  allow_tried :=
                    s.allow_tried || decide (env.max_seed_iter * s.n_to_convert < s.tries),
                  pos := s.pos + 2 }) := by
            unfold step_iter
            rw [if_neg hA, if_neg hD, if_neg hF]
          rw [heq]
          split_ifs
          · unfold step_accept
            simp
          · simp
        have h1 : r2 (s.pos + 1) = r1 (s.pos + 1) := hag _ (by omega) hp1
        rw [h1]
        by_cases hAcc : r1 (s.pos + 1) <
            env.prob (s.cells.getD (env.idxOf (r1 s.pos)) (0, false)).1
        · rw [if_pos hAcc, if_pos hAcc]
          have heq : step_iter env r1 s = step_accept env r1 s
              (s.cells.set (env.idxOf (r1 s.pos))
                ((s.cells.getD (env.idxOf (r1 s.pos)) (0, false)).1, true))
              (s.cells.getD (env.idxOf (r1 s.pos)) (0, false)).1
              (s.allow_tried || decide (env.max_seed_iter * s.n_to_convert < s.tries))
              (s.pos + 2) := by
            unfold step_iter
            rw [if_neg hA, if_neg hD, if_neg hF, if_pos hAcc]
          have hp2 : s.pos + 2 < (step_iter env r1 s).pos := by
            rw [heq]
            unfold step_accept
            simp
          have h2 : r2 (s.pos + 2) = r1 (s.pos + 2) := hag _ (by omega) hp2
          unfold step_accept
          rw [h2]
        · rw [if_neg hAcc, if_neg hAcc]

/-- Claim C7.  Determinism of the conversion loop: its result is a function
of the prior state (grid layers, region list, counters), the oracle tables,
and exactly the stream of random draws it consumes, which are read at the
three draw points (seed-index draw each iteration, acceptance draw only
when not forcing, patch-size draw on acceptance) in program order.  Stated
as a non-interference property: any stream agreeing with the first on the
consumed window `[s.pos, t.pos)` yields the identical final state — in
particular two runs from identical inputs with the same seeded generator
(hence the same stream) produce identical developed layers, and draws
outside the consumed window are irrelevant. -/
theorem C7_run_step_deterministic_prefix (env : StepEnv) (r1 r2 : ℕ → ℚ) :
    ∀ (fuel : ℕ) (s t : StepState), run_step env r1 fuel s = some t →
      (∀ i, s.pos ≤ i → i < t.pos → r2 i = r1 i) →
      run_step env r2 fuel s = some t := by
  intro fuel
  induction fuel with
  | zero =>
    intro s t h _
    simpa only [run_step] using h
  | succ fuel ih =>
    intro s t h hag
    simp only [run_step] at h ⊢
    by_cases hc : s.n_to_convert ≤ s.n_done
    · rw [if_pos hc] at h ⊢
      exact h
    · rw [if_neg hc] at h ⊢
      have hpos1 : (step_iter env r1 s).pos ≤ t.pos := run_step_pos_le env r1 fuel _ t h
      have hcongr : step_iter env r2 s = step_iter env r1 s :=
        step_iter_congr env r1 r2 s (fun i hi1 hi2 => hag i hi1 (lt_of_lt_of_le hi2 hpos1))
      rw [hcongr]
      exact ih (step_iter env r1 s) t h
        (fun i hi1 hi2 =>
          hag i (le_trans (le_of_lt (step_iter_pos_lt env r1 s)) hi1) hi2)

/-! ## Theorems for claim C5 -/

lemma map_fst_set_tried (l : List (ℕ × Bool)) (i : ℕ) (h : i < l.length) (b : Bool) :
    (l.set i ((l.getD i (0, false)).1, b)).map Prod.fst = l.map Prod.fst := by
  have hg : l.getD i (0, false) = l[i] := List.getD_eq_getElem l (0, false) h
  apply List.ext_getElem
  · simp
  · intro n h1 h2
    simp only [List.getElem_map, List.getElem_set]
    by_cases hn : i = n
    · subst hn
      rw [if_pos rfl, hg]
    · rw [if_neg hn]

lemma ForceInv_accept (env : StepEnv) (stream : ℕ → ℚ) (ids0 : List ℕ) (N : ℤ)
    (s : StepState) (hgrow : GrowConforms env.grow) (inv : ForceInv env ids0 N s)
    (i : ℕ) (hi : i < s.cells.length) (size : ℕ) (hsz : 1 ≤ size)
    (hdev : s.developed (s.cells.getD i (0, false)).1 = false)
    (al : Bool) (p : ℕ) :
    ForceInv env ids0 N
      { s with cells := s.cells.set i ((s.cells.getD i (0, false)).1, true),
               developed := fun j => s.developed j ||
                 decide (j ∈ env.grow (s.cells.getD i (0, false)).1 size s.developed),
               n_done := s.n_done +
                 (env.grow (s.cells.getD i (0, false)).1 size s.developed).length,
               allow_tried := al, pos := p } := by
  obtain ⟨hnd, hmem, hlen, hundev⟩ :=
    hgrow (s.cells.getD i (0, false)).1 size s.developed hsz hdev
  refine ⟨inv.force, ?_, inv.target, ?_, ?_⟩
  · show (s.cells.set i ((s.cells.getD i (0, false)).1, true)).map Prod.fst = ids0
    rw [map_fst_set_tried s.cells i hi true, inv.ids]
  · intro c hc hcdev
    have hcdev' : s.developed c.1 = false ∧
        ¬ c.1 ∈ env.grow (s.cells.getD i (0, false)).1 size s.developed := by
      have := hcdev
      simp only [Bool.or_eq_false_iff, decide_eq_false_iff_not] at this
      exact this
    rcases List.mem_or_eq_of_mem_set hc with hmem' | rfl
    · exact inv.untried c hmem' hcdev'.1
    · exact absurd hmem hcdev'.2
  · have hcard : undev_card ids0 (fun j => s.developed j ||
        decide (j ∈ env.grow (s.cells.getD i (0, false)).1 size s.developed)) =
        ((ids0.toFinset.filter fun id => s.developed id = false) \
          (env.grow (s.cells.getD i (0, false)).1 size s.developed).toFinset).card := by
      unfold undev_card
      congr 1
      ext x
      simp only [Finset.mem_filter, Finset.mem_sdiff, List.mem_toFinset,
        Bool.or_eq_false_iff, decide_eq_false_iff_not]
      tauto
    show N ≤ s.n_done +
      ((env.grow (s.cells.getD i (0, false)).1 size s.developed).length : ℤ) +
      (undev_card ids0 (fun j => s.developed j ||
        decide (j ∈ env.grow (s.cells.getD i (0, false)).1 size s.developed)) : ℤ)
    rw [hcard]
    have h1 := Finset.card_sdiff_add_card_inter
      (ids0.toFinset.filter fun id => s.developed id = false)
      (env.grow (s.cells.getD i (0, false)).1 size s.developed).toFinset
    have h2 : ((ids0.toFinset.filter fun id => s.developed id = false) ∩
        (env.grow (s.cells.getD i (0, false)).1 size s.developed).toFinset).card ≤
        (env.grow (s.cells.getD i (0, false)).1 size s.developed).toFinset.card :=
      Finset.card_le_card Finset.inter_subset_right
    have h3 := (env.grow (s.cells.getD i (0, false)).1 size s.developed).toFinset_card_le
    have h0 := inv.count
    unfold undev_card at h0
    omega

lemma ForceInv_step (env : StepEnv) (stream : ℕ → ℚ) (ids0 : List ℕ) (N : ℤ)
    (s : StepState) (hgrow : GrowConforms env.grow)
    (hpatch : ∀ u, 1 ≤ env.patchOf u) (hidx : ∀ u, env.idxOf u < ids0.length)
    (inv : ForceInv env ids0 N s) : ForceInv env ids0 N (step_iter env stream s) := by
  have hlen : s.cells.length = ids0.length := by rw [← inv.ids, List.length_map]
  have hi : env.idxOf (stream s.pos) < s.cells.length := by
    rw [hlen]
    exact hidx _
  simp only [step_iter, step_accept]
  split_ifs with h1 h2 h3 h4
  · exact ⟨inv.force, inv.ids, inv.target, inv.untried, inv.count⟩
  · refine ⟨inv.force, ?_, inv.target, ?_, inv.count⟩
    · show (s.cells.set _ _).map Prod.fst = ids0
      rw [map_fst_set_tried s.cells _ hi true, inv.ids]
    · intro c hc hcdev
      rcases List.mem_or_eq_of_mem_set hc with hmem' | rfl
      · exact inv.untried c hmem' hcdev
      · rw [h2] at hcdev
        cases hcdev
  · exact ForceInv_accept env stream ids0 N s hgrow inv _ hi _ (hpatch _)
      (Bool.eq_false_iff.mpr h2) _ _
  · exact ForceInv_accept env stream ids0 N s hgrow inv _ hi _ (hpatch _)
      (Bool.eq_false_iff.mpr h2) _ _
  · exact absurd inv.force h3

lemma step_iter_force_cases (env : StepEnv) (stream : ℕ → ℚ) (s : StepState)
    (hgrow : GrowConforms env.grow) (hpatch : ∀ u, 1 ≤ env.patchOf u)
    (hforce : s.force_convert_all = true) :
    s.n_done + 1 ≤ (step_iter env stream s).n_done ∨
    ((step_iter env stream s).developed = s.developed ∧
      (step_iter env stream s).n_done = s.n_done ∧
      (step_iter env stream s).pos = s.pos + 1) := by
  simp only [step_iter, step_accept]
  split_ifs with h1 h2
  · exact Or.inr ⟨rfl, rfl, rfl⟩
  · exact Or.inr ⟨rfl, rfl, rfl⟩
  · left
    obtain ⟨hnd, hmem, hlen, hundev⟩ := hgrow _ (env.patchOf (stream (s.pos + 1)))
      s.developed (hpatch _) (Bool.eq_false_iff.mpr h2)
    have hpos : 1 ≤ (env.grow (s.cells.getD (env.idxOf (stream s.pos)) (0, false)).1
        (env.patchOf (stream (s.pos + 1))) s.developed).length :=
      List.length_pos.mpr (List.ne_nil_of_mem hmem)
    show s.n_done + 1 ≤ s.n_done +
      ((env.grow (s.cells.getD (env.idxOf (stream s.pos)) (0, false)).1
        (env.patchOf (stream (s.pos + 1))) s.developed).length : ℤ)
    omega

lemma step_iter_force_hit (env : StepEnv) (stream : ℕ → ℚ) (s : StepState)
    (hgrow : GrowConforms env.grow) (hpatch : ∀ u, 1 ≤ env.patchOf u)
    (hforce : s.force_convert_all = true)
    (huntried : ∀ c ∈ s.cells, s.developed c.1 = false → c.2 = false)
    (hi : env.idxOf (stream s.pos) < s.cells.length)
    (hdev : s.developed (s.cells.getD (env.idxOf (stream s.pos)) (0, false)).1 = false) :
    s.n_done + 1 ≤ (step_iter env stream s).n_done := by
  have hc : s.cells.getD (env.idxOf (stream s.pos)) (0, false) =
      s.cells[env.idxOf (stream s.pos)] := List.getD_eq_getElem _ _ hi
  have hmem : s.cells.getD (env.idxOf (stream s.pos)) (0, false) ∈ s.cells := by
    rw [hc]
    exact List.getElem_mem _
  have htried : (s.cells.getD (env.idxOf (stream s.pos)) (0, false)).2 = false :=
    huntried _ hmem hdev
  simp only [step_iter, step_accept]
  rw [if_neg (by rw [htried]; simp), if_neg (by rw [hdev]; simp), if_pos hforce]
  obtain ⟨hnd, hg, hlen, hundev⟩ := hgrow _ (env.patchOf (stream (s.pos + 1)))
    s.developed (hpatch _) hdev
  have hpos : 1 ≤ (env.grow (s.cells.getD (env.idxOf (stream s.pos)) (0, false)).1
      (env.patchOf (stream (s.pos + 1))) s.developed).length :=
    List.length_pos.mpr (List.ne_nil_of_mem hg)
  show s.n_done + 1 ≤ s.n_done +
    ((env.grow (s.cells.getD (env.idxOf (stream s.pos)) (0, false)).1
      (env.patchOf (stream (s.pos + 1))) s.developed).length : ℤ)
  omega

lemma force_progress_from (env : StepEnv) (stream : ℕ → ℚ) (ids0 : List ℕ) (N : ℤ)
    (hgrow : GrowConforms env.grow) (hpatch : ∀ u, 1 ≤ env.patchOf u)
    (hidx : ∀ u, env.idxOf u < ids0.length) :
    ∀ (d : ℕ) (s : StepState) (i : ℕ), ForceInv env ids0 N s →
      env.idxOf (stream (s.pos + d)) = i → s.developed (ids0.getD i 0) = false →
      ∃ k : ℕ, ForceInv env ids0 N ((step_iter env stream)^[k] s) ∧
        s.n_done + 1 ≤ ((step_iter env stream)^[k] s).n_done := by
  intro d
  induction d with
  | zero =>
    intro s i hinv hsample hdev
    have hlen : s.cells.length = ids0.length := by rw [← hinv.ids, List.length_map]
    have hi : env.idxOf (stream s.pos) < s.cells.length := by
      rw [hlen]
      exact hidx _
    have hid : (s.cells.getD (env.idxOf (stream s.pos)) (0, false)).1 = ids0.getD i 0 := by
      have hmapD : (s.cells.map Prod.fst).getD (env.idxOf (stream s.pos))
          (Prod.fst ((0 : ℕ), false)) =
          Prod.fst (s.cells.getD (env.idxOf (stream s.pos)) ((0 : ℕ), false)) :=
        List.getD_map s.cells ((0 : ℕ), false) Prod.fst
      rw [hinv.ids] at hmapD
      rw [← hmapD]
      simp only [Nat.add_zero] at hsample
      rw [hsample]
    refine ⟨1, ?_, ?_⟩
    · simp only [Function.iterate_one]
      exact ForceInv_step env stream ids0 N s hgrow hpatch hidx hinv
    · simp only [Function.iterate_one]
      exact step_iter_force_hit env stream s hgrow hpatch hinv.force hinv.untried hi
        (by rw [hid]; exact hdev)
  | succ d ih =>
    intro s i hinv hsample hdev
    rcases step_iter_force_cases env stream s hgrow hpatch hinv.force with hprog | ⟨hd, hn, hp⟩
    · refine ⟨1, ?_, ?_⟩
      · simp only [Function.iterate_one]
        exact ForceInv_step env stream ids0 N s hgrow hpatch hidx hinv
      · simpa only [Function.iterate_one] using hprog
    · have hinv' := ForceInv_step env stream ids0 N s hgrow hpatch hidx hinv
      have hsample' : env.idxOf (stream ((step_iter env stream s).pos + d)) = i := by
        rw [hp, show s.pos + 1 + d = s.pos + (d + 1) by omega]
        exact hsample
      have hdev' : (step_iter env stream s).developed (ids0.getD i 0) = false := by
        rw [hd]
        exact hdev
      obtain ⟨k, hk1, hk2⟩ := ih (step_iter env stream s) i hinv' hsample' hdev'
      refine ⟨k + 1, ?_, ?_⟩
      · rw [Function.iterate_succ_apply]
        exact hk1
      · rw [Function.iterate_succ_apply]
        omega

lemma run_step_through_iterates (env : StepEnv) (stream : ℕ → ℚ) :
    ∀ (k : ℕ) (s : StepState),
      (∃ fuel t, run_step env stream fuel ((step_iter env stream)^[k] s) = some t) →
      ∃ fuel t, run_step env stream fuel s = some t := by
  intro k
  induction k with
  | zero =>
    intro s h
    simpa only [Function.iterate_zero, id] using h
  | succ k ih =>
    intro s h
    rw [Function.iterate_succ_apply] at h
    obtain ⟨fuel, t, ht⟩ := ih (step_iter env stream s) h
    by_cases hc : s.n_to_convert ≤ s.n_done
    · exact ⟨0, s, by simp only [run_step]; rw [if_pos hc]⟩
    · exact ⟨fuel + 1, t, by simp only [run_step]; rw [if_neg hc]; exact ht⟩

lemma force_terminates (env : StepEnv) (stream : ℕ → ℚ) (ids0 : List ℕ) (N : ℤ)
    (hgrow : GrowConforms env.grow) (hpatch : ∀ u, 1 ≤ env.patchOf u)
    (hidx : ∀ u, env.idxOf u < ids0.length)
    (hfair : ∀ (k : ℕ) (i : ℕ), i < ids0.length → ∃ m : ℕ, k ≤ m ∧ env.idxOf (stream m) = i) :
    ∀ (b : ℕ) (s : StepState), ForceInv env ids0 N s → (N - s.n_done).toNat ≤ b →
      ∃ fuel t, run_step env stream fuel s = some t := by
  intro b
  induction b with
  | zero =>
    intro s hinv hb
    have hc : s.n_to_convert ≤ s.n_done := by
      rw [hinv.target]
      omega
    exact ⟨0, s, by simp only [run_step]; rw [if_pos hc]⟩
  | succ b ih =>
    intro s hinv hb
    by_cases hc : N ≤ s.n_done
    · have hc' : s.n_to_convert ≤ s.n_done := by
        rw [hinv.target]
        exact hc
      exact ⟨0, s, by simp only [run_step]; rw [if_pos hc']⟩
    · push_neg at hc
      have hcount := hinv.count
      have hcard : 0 < (ids0.toFinset.filter fun id => s.developed id = false).card := by
        by_contra hcon
        push_neg at hcon
        have : undev_card ids0 s.developed = 0 := by
          unfold undev_card
          omega
        omega
      obtain ⟨id, hidmem⟩ := Finset.card_pos.mp hcard
      have hid1 : id ∈ ids0 := List.mem_toFinset.mp (Finset.mem_filter.mp hidmem).1
      have hid2 : s.developed id = false := by
        have := (Finset.mem_filter.mp hidmem).2
        exact of_decide_eq_true (by simpa using this)
      obtain ⟨i, hi, hgi⟩ := List.getElem_of_mem hid1
      obtain ⟨m, hm1, hm2⟩ := hfair s.pos i hi
      have hdev : s.developed (ids0.getD i 0) = false := by
        rw [List.getD_eq_getElem _ _ hi, hgi]
        exact hid2
      obtain ⟨k, hk1, hk2⟩ := force_progress_from env stream ids0 N hgrow hpatch hidx
        (m - s.pos) s i hinv
        (by rw [show s.pos + (m - s.pos) = m by omega]; exact hm2) hdev
      have hb' : (N - ((step_iter env stream)^[k] s).n_done).toNat ≤ b := by omega
      exact run_step_through_iterates env stream k s (ih _ hk1 hb')

lemma ExactInv_step (env : StepEnv) (stream : ℕ → ℚ) (ids0 : List ℕ) (N : ℤ)
    (s : StepState) (hgrow : GrowConforms env.grow) (hpatch : ∀ u, 1 ≤ env.patchOf u)
    (hidx : ∀ u, env.idxOf u < ids0.length) (hnodup : ids0.Nodup)
    (hconf : ∀ id size dev, ∀ j ∈ env.grow id size dev, j ∈ ids0)
    (inv : ExactInv ids0 N s) : ExactInv ids0 N (step_iter env stream s) := by
  have hlen : s.cells.length = ids0.length := by rw [← inv.ids, List.length_map]
  have hi : env.idxOf (stream s.pos) < s.cells.length := by
    rw [hlen]
    exact hidx _
  have haccept : ∀ (size : ℕ), 1 ≤ size →
      s.developed (s.cells.getD (env.idxOf (stream s.pos)) (0, false)).1 = false →
      ∀ (al : Bool) (p : ℕ), ExactInv ids0 N
        { s with
          cells := s.cells.set (env.idxOf (stream s.pos)) ((s.cells.getD (env.idxOf (stream s.pos)) (0, false)).1, true),
          developed := fun j => s.developed j || decide (j ∈ env.grow (s.cells.getD (env.idxOf (stream s.pos)) (0, false)).1 size s.developed),
          n_done := s.n_done + (env.grow (s.cells.getD (env.idxOf (stream s.pos)) (0, false)).1 size s.developed).length,
          allow_tried := al, pos := p } := by
    intro size hsz hdev al p
    obtain ⟨hnd, hg, hglen, hundev⟩ :=
      hgrow (s.cells.getD (env.idxOf (stream s.pos)) (0, false)).1 size s.developed hsz hdev
    refine ⟨?_, ?_⟩
    · show (s.cells.set _ _).map Prod.fst = ids0
      rw [map_fst_set_tried s.cells _ hi true, inv.ids]
    · have hcard : undev_card ids0 (fun j => s.developed j ||
          decide (j ∈ env.grow (s.cells.getD (env.idxOf (stream s.pos)) (0, false)).1
            size s.developed)) =
          ((ids0.toFinset.filter fun id => s.developed id = false) \
            (env.grow (s.cells.getD (env.idxOf (stream s.pos)) (0, false)).1
              size s.developed).toFinset).card := by
        unfold undev_card
        congr 1
        ext x
        simp only [Finset.mem_filter, Finset.mem_sdiff, List.mem_toFinset,
          Bool.or_eq_false_iff, decide_eq_false_iff_not]
        tauto
      have hsub : (env.grow (s.cells.getD (env.idxOf (stream s.pos)) (0, false)).1
          size s.developed).toFinset ⊆
          ids0.toFinset.filter fun id => s.developed id = false := by
        intro x hx
        have hx' : x ∈ env.grow (s.cells.getD (env.idxOf (stream s.pos)) (0, false)).1
            size s.developed := List.mem_toFinset.mp hx
        refine Finset.mem_filter.mpr ⟨List.mem_toFinset.mpr (hconf _ _ _ x hx'), ?_⟩
        simp [hundev x hx']
      have hTcard : (env.grow (s.cells.getD (env.idxOf (stream s.pos)) (0, false)).1
          size s.developed).toFinset.card =
          (env.grow (s.cells.getD (env.idxOf (stream s.pos)) (0, false)).1
            size s.developed).length := List.toFinset_card_of_nodup hnd
      have hsdiff := Finset.card_sdiff hsub
      have hle := Finset.card_le_card hsub
      show s.n_done +
        ((env.grow (s.cells.getD (env.idxOf (stream s.pos)) (0, false)).1
          size s.developed).length : ℤ) +
        (undev_card ids0 (fun j => s.developed j ||
          decide (j ∈ env.grow (s.cells.getD (env.idxOf (stream s.pos)) (0, false)).1
            size s.developed)) : ℤ) = N
      rw [hcard]
      have h0 := inv.count
      unfold undev_card at h0
      omega
  simp only [step_iter, step_accept]
  split_ifs with h1 h2 h3 h4
  · exact ⟨inv.ids, inv.count⟩
  · refine ⟨?_, inv.count⟩
    show (s.cells.set _ _).map Prod.fst = ids0
    rw [map_fst_set_tried s.cells _ hi true, inv.ids]
  · exact haccept _ (hpatch _) (Bool.eq_false_iff.mpr h2) _ _
  · exact haccept _ (hpatch _) (Bool.eq_false_iff.mpr h2) _ _
  · refine ⟨?_, inv.count⟩
    show (s.cells.set _ _).map Prod.fst = ids0
    rw [map_fst_set_tried s.cells _ hi true, inv.ids]

lemma run_step_exact (env : StepEnv) (stream : ℕ → ℚ) (ids0 : List ℕ) (N : ℤ)
    (hgrow : GrowConforms env.grow) (hpatch : ∀ u, 1 ≤ env.patchOf u)
    (hidx : ∀ u, env.idxOf u < ids0.length) (hnodup : ids0.Nodup)
    (hconf : ∀ id size dev, ∀ j ∈ env.grow id size dev, j ∈ ids0) :
    ∀ (fuel : ℕ) (s t : StepState), ExactInv ids0 N s → s.n_to_convert = N →
      run_step env stream fuel s = some t → t.n_done = N := by
  intro fuel
  induction fuel with
  | zero =>
    intro s t hinv htar h
    simp only [run_step] at h
    split at h
    · cases h
      have := hinv.count
      have hcge : (0 : ℤ) ≤ (undev_card ids0 s.developed : ℤ) := by positivity
      omega
    · cases h
  | succ fuel ih =>
    intro s t hinv htar h
    simp only [run_step] at h
    split at h
    · cases h
      have := hinv.count
      have hcge : (0 : ℤ) ≤ (undev_card ids0 s.developed : ℤ) := by positivity
      omega
    · exact ih (step_iter env stream s) t
        (ExactInv_step env stream ids0 N s hgrow hpatch hidx hnodup hconf hinv)
        ((step_iter_n_to_convert env stream s).trans htar) h

lemma cexGrow_conforms : GrowConforms cexGrow := by
  intro id size dev hsz hdev
  unfold cexGrow
  obtain ⟨k, rfl⟩ : ∃ k, size = k + 1 := ⟨size - 1, by omega⟩
  refine ⟨?_, ?_, ?_, ?_⟩
  · refine (List.take_sublist _ _).nodup (List.nodup_cons.mpr ⟨?_, ?_⟩)
    · intro hmem
      have := List.of_mem_filter hmem
      simp at this
    · exact (List.filter_sublist _).nodup (by decide)
  · simp [List.take_succ_cons]
  · simpa using List.length_take_le (k + 1) _
  · intro j hj
    have hj' := List.mem_of_mem_take hj
    rcases List.mem_cons.mp hj' with rfl | hj2
    · exact hdev
    · have := List.of_mem_filter hj2
      simp only [Bool.and_eq_true, Bool.not_eq_true'] at this
      exact this.1

/-- Counterexample for claim C5.  The claim asserts the clamped, forced
step loop "always terminates, converting exactly the clamped amount".
`grow_patch` is not under src/, so growth is spec-modelled (`GrowConforms`);
§4.7/§9 do not bound a patch to the growing region's list.  Concretely: a
region with the single undeveloped cell 7 and demand 2 is clamped to
1 with the warning emitted, but the first forced seed grows a conforming
3-cell patch {7, 100, 101}, so the loop exits having converted 3 ≠ 1
cells — the overshoot is carried as positive overflow, but the step did
not convert exactly the clamped amount. -/
theorem C5_forced_step_can_overshoot_clamped_amount :
    GrowConforms cexGrow ∧
    (init_step 2 0 [(7, false)] (fun _ => false)).2.2 = true ∧
    (init_step 2 0 [(7, false)] (fun _ => false)).1.n_to_convert = 1 ∧
    ((run_step cexEnv cexStream 2 (init_step 2 0 [(7, false)] (fun _ => false)).1).map
      (fun t => t.n_done)) = some 3 := by
  exact ⟨cexGrow_conforms, rfl, rfl, rfl⟩

/-- Claim C5, amended.  When the reconciled demand exceeds the region's
undeveloped count, `compute_step` clamps the requested amount to that
count, emits the non-fatal warning and forces acceptance of every sampled
seed (first three conjuncts).  For every conforming growth model: whenever
the loop exits it has converted at least the clamped amount, and exactly
the clamped amount provided every grown patch stays inside the region's
list; and the loop does terminate for every draw stream whose seed draws
propose each list index again and again (in particular it cannot hang
under such sampling, although an adversarial stream that forever re-draws
an already-converted cell would loop, and cross-region patches can
overshoot — see the counterexample). -/
theorem C5_clamped_step_amended (env : StepEnv) (stream : ℕ → ℚ)
    (demand extra0 : ℤ) (cells0 : List (ℕ × Bool)) (developed0 : ℕ → Bool)
    (hgrow : GrowConforms env.grow)
    (hpatch : ∀ u, 1 ≤ env.patchOf u)
    (hidx : ∀ u, env.idxOf u < cells0.length)
    (hnodup : (cells0.map Prod.fst).Nodup)
    (huntried : ∀ c ∈ cells0, c.2 = false)
    (hundev : ∀ c ∈ cells0, developed0 c.1 = false)
    (hshort : (cells0.length : ℤ) < (reconcile_overflow demand extra0).1)
    (hfair : ∀ (k : ℕ) (i : ℕ), i < cells0.length →
      ∃ m, k ≤ m ∧ env.idxOf (stream m) = i) :
    (init_step demand extra0 cells0 developed0).2.2 = true ∧
    (init_step demand extra0 cells0 developed0).1.force_convert_all = true ∧
    (init_step demand extra0 cells0 developed0).1.n_to_convert = (cells0.length : ℤ) ∧
    (∀ fuel t,
      run_step env stream fuel (init_step demand extra0 cells0 developed0).1 = some t →
      (cells0.length : ℤ) ≤ t.n_done) ∧
    ((∀ id size dev, ∀ j ∈ env.grow id size dev, j ∈ cells0.map Prod.fst) →
      ∀ fuel t,
        run_step env stream fuel (init_step demand extra0 cells0 developed0).1 = some t →
        t.n_done = (cells0.length : ℤ)) ∧
    (∃ fuel t,
      run_step env stream fuel (init_step demand extra0 cells0 developed0).1 = some t) := by
  have hs0 : (init_step demand extra0 cells0 developed0).1 =
      { cells := cells0, developed := developed0, n_done := 0,
        n_to_convert := (cells0.length : ℤ), tries := 0, allow_tried := false,
        force_convert_all := true, pos := 0 } := by
    simp only [init_step, clamp_to_supply]
    rw [if_pos hshort]
  have hflag : (init_step demand extra0 cells0 developed0).2.2 = true := by
    simp only [init_step, clamp_to_supply]
    rw [if_pos hshort]
  have hidx' : ∀ u, env.idxOf u < (cells0.map Prod.fst).length := by
    intro u
    rw [List.length_map]
    exact hidx u
  have hall : ∀ id ∈ (cells0.map Prod.fst).toFinset, developed0 id = false := by
    intro id hid
    obtain ⟨c, hc, rfl⟩ := List.mem_map.mp (List.mem_toFinset.mp hid)
    exact hundev c hc
  have hcard : (undev_card (cells0.map Prod.fst) developed0 : ℤ) = (cells0.length : ℤ) := by
    unfold undev_card
    rw [Finset.filter_true_of_mem hall, List.toFinset_card_of_nodup hnodup, List.length_map]
  refine ⟨hflag, by rw [hs0], by rw [hs0], ?_, ?_, ?_⟩
  · intro fuel t h
    have hexit := run_step_exit env stream fuel _ t h
    have h1 := hexit.1
    have h2 : t.n_to_convert = (cells0.length : ℤ) := by
      rw [hexit.2, hs0]
    omega
  · intro hconf fuel t h
    refine run_step_exact env stream (cells0.map Prod.fst) (cells0.length : ℤ)
      hgrow hpatch hidx' hnodup hconf fuel _ t ?_ ?_ h
    · rw [hs0]
      refine ⟨rfl, ?_⟩
      show (0 : ℤ) + (undev_card (cells0.map Prod.fst) developed0 : ℤ) = (cells0.length : ℤ)
      omega
    · rw [hs0]
  · have hinv : ForceInv env (cells0.map Prod.fst) (cells0.length : ℤ)
        (init_step demand extra0 cells0 developed0).1 := by
      rw [hs0]
      refine ⟨rfl, rfl, rfl, ?_, ?_⟩
      · intro c hc _
        exact huntried c hc
      · show (cells0.length : ℤ) ≤ 0 + (undev_card (cells0.map Prod.fst) developed0 : ℤ)
        omega
    refine force_terminates env stream (cells0.map Prod.fst) (cells0.length : ℤ)
      hgrow hpatch hidx' ?_ ((cells0.length : ℤ) -
        (init_step demand extra0 cells0 developed0).1.n_done).toNat _ hinv (le_refl _)
    intro k i hi
    rw [List.length_map] at hi
    exact hfair k i hi

/-- Witness for the amended C5: a one-cell region with demand 2, a
single-cell growth model and a constant seed draw; the step is clamped to
the region's count with the warning emitted. -/
theorem C5_clamped_step_amended_witness :
    (init_step 2 0 [(5, false)] (fun _ => false)).2.2 = true ∧
    (init_step 2 0 [(5, false)] (fun _ => false)).1.n_to_convert =
      (([(5, false)] : List (ℕ × Bool)).length : ℤ) := by
  refine ((fun h => ⟨h.1, h.2.2.1⟩) (C5_clamped_step_amended witEnv cexStream 2 0
    [(5, false)] (fun _ => false) ?_ ?_ ?_ ?_ ?_ ?_ ?_ ?_))
  · intro id size dev hsz hdev
    show ([id] : List ℕ).Nodup ∧ id ∈ ([id] : List ℕ) ∧
      ([id] : List ℕ).length ≤ size ∧ ∀ j ∈ ([id] : List ℕ), dev j = false
    refine ⟨by simp, by simp, by simpa using hsz, ?_⟩
    intro j hj
    rw [List.mem_singleton.mp hj]
    exact hdev
  · intro u
    exact le_refl 1
  · intro u
    show 0 < 1
    norm_num
  · decide
  · intro c hc
    rw [List.mem_singleton.mp hc]
  · intro c hc
    rfl
  · show (1 : ℤ) < (reconcile_overflow 2 0).1
    norm_num [reconcile_overflow]
  · intro k i hi
    have hi0 : i = 0 := by
      simp at hi
      omega
    exact ⟨k, le_refl k, by rw [hi0]; rfl⟩

/-- Witness for C7: a run that exits immediately consumes no draws, so a
stream differing everywhere beyond the (empty) consumed window gives the
same result. -/
theorem C7_run_step_deterministic_prefix_witness :
    run_step witEnv (fun _ => (1 : ℚ)/3) 2 witState = some witState := by
  refine C7_run_step_deterministic_prefix witEnv (fun _ => (1 : ℚ)/7) (fun _ => (1 : ℚ)/3) 2
    witState witState rfl ?_
  intro i h1 h2
  exact absurd (lt_of_le_of_lt h1 h2) (lt_irrefl _)

/-- Claim C6.  `get_develop_probability_xy` equals the reference definition
of §4.2: logistic of the linear score, the optional incentive lookup at
`floor(probability × (N−1))` with a fatal range error outside `[0, N−1]`
(the C cast truncates toward zero, but the logistic probability lies in
(0,1), so truncation and floor agree on every reachable index, and for
degenerate table sizes `N ≤ 0` both definitions yield the range error),
and the weight blend with its negative / positive / zero cases.  Purity
and determinism are captured by the embedding: both sides are total
functions of exactly the raster values and coefficients read. -/
theorem C6_get_develop_probability_matches_spec (pot : PotentialInfo) (region : ℕ)
    (devpressure_val : ℝ) (values : ℕ → ℝ) (use_weight : Bool) (weight : ℝ) :
    get_develop_probability_xy pot region devpressure_val values use_weight weight =
      computeProbability_spec pot region devpressure_val values use_weight weight := by
  unfold get_develop_probability_xy computeProbability_spec
  rcases htab : pot.incentive_transform with _ | table
  · simp only [htab]
    rfl
  · simp only [htab]
    exact incentive_lookup_eq table use_weight weight
      (logistic (pot.intercept region + pot.devpressure region * devpressure_val +
        ∑ i ∈ Finset.range pot.max_predictors, pot.predictors i region * values i))
      (logistic_pos _) (logistic_lt_one _) pot.incentive_transform_size

end FuturesSim
